import Mathlib

/-!
Shallow embedding of the markdown-to-ADF converter of `JiraService`
(`parseMarkdownInline`, `buildParagraph`, `getLineIndent`, `splitTableRow`,
`isTableSeparator`, `buildTableNode`, `parseMarkdownBlocks`, `createTextADF`).

Strings are embedded as `List Char` (`Str`).  The two scanning loops of the
source (the inline tokenizer's `while (remaining.length > 0)` loop and the
block segmenter's `for` loop over lines, including its recursive blockquote
call) are embedded with an explicit fuel argument; every loop iteration of
the source consumes at least one character / one line, so running the
functions with fuel equal to the input measure reproduces the source, and a
fuel-independence theorem carries the termination argument.
-/

set_option maxRecDepth 8192

namespace JiraMd

/-- Embedded JavaScript string: a list of characters. -/
abbrev Str := List Char

/-- The backtick character (code 96), written via `Char.ofNat`. -/
def btChar : Char := Char.ofNat 96

/-- Whitespace test used for the `\s` character class and for
`trim` / `trimEnd` (ASCII whitespace; no newline can occur inside a line). -/
def isWs (c : Char) : Bool :=
  c == ' ' || c == '\t' || c == '\r' || c == '\x0b' || c == '\x0c'

/-- JavaScript `trimEnd`: remove trailing whitespace. -/
def jsTrimEnd (s : Str) : Str := (s.reverse.dropWhile isWs).reverse

/-- JavaScript `trim`: remove leading and trailing whitespace. -/
def jsTrim (s : Str) : Str := jsTrimEnd (s.dropWhile isWs)

/-- `text.replace(/\r\n/g, "\n")`: left-to-right non-overlapping replacement. -/
def replaceCRLF : Str → Str
  | [] => []
  | '\r' :: '\n' :: t => '\n' :: replaceCRLF t
  | c :: t => c :: replaceCRLF t

/-- `String.prototype.split` on a single-character separator
(never returns an empty list; splitting `""` yields `[""]`). -/
def splitOnChar (d : Char) : Str → List Str
  | [] => [[]]
  | c :: t =>
    if c == d then [] :: splitOnChar d t
    else
      match splitOnChar d t with
      | h :: r => (c :: h) :: r
      | [] => [[c]]

/-- `Array.prototype.join` with a single-character separator. -/
def joinSep (d : Char) : List Str → Str
  | [] => []
  | [l] => l
  | l :: ls => l ++ d :: joinSep d ls

/-- A mark on a text node (`strong`, `em`, `strike`, `code`, `link`). -/
inductive Mark where
  | strong
  | em
  | strike
  | code
  | link (href : Str)
deriving DecidableEq, Repr

/-- An ADF inline node: a text node (with its `marks` array, `[]` standing
for an absent `marks` field) or a hard break. -/
inductive Inline where
  | text (s : Str) (marks : List Mark)
  | hardBreak
deriving DecidableEq, Repr

/-- A table cell: `isHeader` distinguishes `tableHeader` from `tableCell`;
`para` is the inline content of the single wrapped paragraph
(`content: [toParagraph(cell)]` in the source). -/
structure Cell where
  isHeader : Bool
  para : List Inline
deriving DecidableEq, Repr

/-- A non-negative JavaScript number as produced by `Number` on a decimal
digit run: a finite double (every such value is an exact natural number) or
`Infinity` (for literals whose rounded value reaches `2 ^ 1024`).  `NaN`
cannot arise from a non-empty digit run. -/
inductive JsNumber where
  | finite (n : Nat)
  | infinity
deriving DecidableEq, Repr

/-- An ADF block node.  `listItem` content is a `List Block`; the constant
table attributes (`isNumberColumnEnabled: false`, `layout: "default"`) carry
no information and are not represented. -/
inductive Block where
  | paragraph (content : List Inline)
  | heading (level : Nat) (content : List Inline)
  | codeBlock (language : Option Str) (text : Str)
  | blockquote (content : List Block)
  | bulletList (items : List (List Block))
  | orderedList (startAttr : Option JsNumber) (items : List (List Block))
  | table (rows : List (List Cell))
deriving Repr

/-- The ADF document produced by `createTextADF` (`type: "doc"` is implicit). -/
structure Document where
  version : Nat
  content : List Block
deriving Repr

/-! ### Inline tokenizer (`parseMarkdownInline`) -/

/-- Matcher for `^DD([^D]+)DD` (with `D` the delimiter `d`): the two-character
delimiter twice around a non-empty run free of `d`.  Returns the captured
group and the remaining input after the full match. -/
def matchDelim2 (d : Char) (s : Str) : Option (Str × Str) :=
  match s with
  | a :: b :: t =>
    if a == d && b == d then
      let inner := t.takeWhile (fun c => c != d)
      match t.dropWhile (fun c => c != d) with
      | x :: y :: rest =>
        if !inner.isEmpty && x == d && y == d then some (inner, rest) else none
      | _ => none
    else none
  | _ => none

/-- Matcher for `^D([^D]+)D`: single-character delimiter around a non-empty
run free of `d`. -/
def matchDelim1 (d : Char) (s : Str) : Option (Str × Str) :=
  match s with
  | a :: t =>
    if a == d then
      let inner := t.takeWhile (fun c => c != d)
      match t.dropWhile (fun c => c != d) with
      | x :: rest =>
        if !inner.isEmpty && x == d then some (inner, rest) else none
      | _ => none
    else none
  | _ => none

/-- Matcher for `^\[([^\]]+)\]\(([^)]+)\)`: a link, returning link text,
href and the remaining input. -/
def matchLink (s : Str) : Option (Str × Str × Str) :=
  match s with
  | a :: t =>
    if a == '[' then
      let txt := t.takeWhile (fun c => c != ']')
      match t.dropWhile (fun c => c != ']') with
      | x :: y :: u =>
        if x == ']' && y == '(' then
          let href := u.takeWhile (fun c => c != ')')
          match u.dropWhile (fun c => c != ')') with
          | z :: rest =>
            if z == ')' && !txt.isEmpty && !href.isEmpty then some (txt, href, rest)
            else none
          | _ => none
        else none
      | _ => none
    else none
  | _ => none

/-- The ordered pattern list of `parseMarkdownInline`: strike, strong (`**`),
em (`*`), strong (`__`), em (`_`), inline code, link — first match wins. -/
def tryPatterns (s : Str) : Option (Inline × Str) :=
  match matchDelim2 '~' s with
  | some (inner, rest) => some (.text inner [.strike], rest)
  | none =>
  match matchDelim2 '*' s with
  | some (inner, rest) => some (.text inner [.strong], rest)
  | none =>
  match matchDelim1 '*' s with
  | some (inner, rest) => some (.text inner [.em], rest)
  | none =>
  match matchDelim2 '_' s with
  | some (inner, rest) => some (.text inner [.strong], rest)
  | none =>
  match matchDelim1 '_' s with
  | some (inner, rest) => some (.text inner [.em], rest)
  | none =>
  match matchDelim1 btChar s with
  | some (inner, rest) => some (.text inner [.code], rest)
  | none =>
  match matchLink s with
  | some (txt, href, rest) => some (.text txt [.link href], rest)
  | none => none

/-- One of the single-character delimiter alternatives of the
`remaining.search` regex: star, underscore, backtick, or a square bracket
(the tilde alternative needs a pair and is handled separately). -/
def isSingleSpecial (c : Char) : Bool :=
  c == '*' || c == '_' || c == btChar || c == '[' || c == ']'

/-- Index of the first position matching the delimiter search regex
(`~~` needs a double tilde; `*`, `_`, backtick, `[`, `]` match alone). -/
def nextSpecial : Str → Option Nat
  | [] => none
  | c :: rest =>
    if isSingleSpecial c then some 0
    else if c == '~' && (match rest with | r :: _ => r == '~' | [] => false) then some 0
    else (nextSpecial rest).map (· + 1)

/-- The tokenizer scan loop with explicit fuel; every iteration of the source
loop consumes at least one character, so `fuel = s.length` suffices. -/
def parseInlineF : Nat → Str → List Inline
  | _, [] => []
  | 0, _ :: _ => []
  | fuel + 1, c :: t =>
    match tryPatterns (c :: t) with
    | some (node, rest) => node :: parseInlineF fuel rest
    | none =>
      match nextSpecial (c :: t) with
      | none => [.text (c :: t) []]
      | some 0 => .text [c] [] :: parseInlineF fuel t
      | some (k + 1) =>
        .text ((c :: t).take (k + 1)) [] :: parseInlineF fuel ((c :: t).drop (k + 1))

/-- `parseMarkdownInline(text)`. -/
def parseMarkdownInline (s : Str) : List Inline := parseInlineF s.length s

/-- The placeholder `{ type: "text", text: "" }` node. -/
def emptyTextNode : Inline := .text [] []

/-- `content.length ? content : [{ type: "text", text: "" }]` — shared by
`buildParagraph` and the table-cell `toParagraph` helper. -/
def inlineOrPlaceholder (s : Str) : List Inline :=
  let content := parseMarkdownInline s
  if content.isEmpty then [emptyTextNode] else content

/-- `buildParagraph(text)`. -/
def buildParagraph (s : Str) : Block := .paragraph (inlineOrPlaceholder s)

example : parseMarkdownInline "**bold**".data = [.text "bold".data [.strong]] := by rfl
example : parseMarkdownInline "a *b* c".data =
    [.text "a ".data [], .text "b".data [.em], .text " c".data []] := by rfl
example : parseMarkdownInline "[t](u)".data = [.text "t".data [.link "u".data]] := by rfl
example : parseMarkdownInline "***a***".data =
    [.text "*".data [], .text "a".data [.strong], .text "*".data []] := by rfl

/-! ### Block segmenter helpers -/

/-- `getLineIndent(line)`: length of the leading whitespace run after
replacing every tab by two spaces. -/
def getLineIndent (line : Str) : Nat :=
  (line.takeWhile isWs).foldl (fun acc c => acc + (if c == '\t' then 2 else 1)) 0

/-- `line.trim().replace(/^\|/, "")`: strip one leading pipe. -/
def stripLeadPipe (s : Str) : Str :=
  match s with
  | '|' :: t => t
  | _ => s

/-- `.replace(/\|$/, "")`: strip one trailing pipe. -/
def stripTrailPipe (s : Str) : Str :=
  match s.reverse with
  | '|' :: t => t.reverse
  | _ => s

/-- `splitTableRow(line)`: trim, strip one leading and one trailing pipe,
split on `|`, trim each cell. -/
def splitTableRow (line : Str) : List Str :=
  (splitOnChar '|' (stripTrailPipe (stripLeadPipe (jsTrim line)))).map jsTrim

/-- One separator-row cell: `^:?-{3,}:?$`. -/
def isSepCell (cell : Str) : Bool :=
  let a := match cell with | ':' :: t => t | _ => cell
  let b := match a.reverse with | ':' :: t => t.reverse | _ => a
  decide (3 ≤ b.length) && b.all (fun c => c == '-')

/-- `isTableSeparator(line)`. -/
def isTableSeparator (line : Str) : Bool :=
  let cells := splitTableRow line
  !cells.isEmpty && cells.all isSepCell

/-- `buildTableNode(headerLine, bodyLines)`: the header row from the header
line's split, one body row per body line from that line's own split. -/
def buildTableNode (headerLine : Str) (bodyLines : List Str) : Block :=
  let headerRow : List Cell :=
    (splitTableRow headerLine).map (fun cell => ⟨true, inlineOrPlaceholder cell⟩)
  let bodyRows : List (List Cell) :=
    bodyLines.map (fun line => (splitTableRow line).map
      (fun cell => (⟨false, inlineOrPlaceholder cell⟩ : Cell)))
  .table (headerRow :: bodyRows)

/-- The two list kinds of the nesting stack. -/
inductive LKind where
  | bullet
  | ordered
deriving DecidableEq, Repr

/-- One entry of the list-nesting stack.  In the source the entry holds a
reference to the (mutable) list node; here it holds the list's attributes
and the items accumulated so far, and the node is materialized when the
entry is closed. -/
structure OpenList where
  kind : LKind
  indent : Nat
  startAttr : Option JsNumber
  items : List (List Block)
deriving Repr

/-- The running state of one `parseMarkdownBlocks` invocation: emitted
blocks, the paragraph line buffer, and the list-nesting stack (head =
innermost open list). -/
structure PState where
  blocks : List Block
  para : List Str
  stack : List OpenList
deriving Repr

/-- The state at the start of a `parseMarkdownBlocks` invocation. -/
def initState : PState := ⟨[], [], []⟩

/-- `createListNode(type, start)` as a fresh stack entry:
`attrs: start ? { order: start } : undefined` (so `start = 0` is falsy and
yields no attribute). -/
def newOpenList (kind : LKind) (indent : Nat) (start : Option JsNumber) : OpenList :=
  { kind := kind, indent := indent,
    startAttr := match start with
      | some v => if v = JsNumber.finite 0 then none else some v
      | none => none,
    items := [] }

/-- Materialize a closed stack entry into its list node. -/
def materialize (e : OpenList) : Block :=
  match e.kind with
  | .bullet => .bulletList e.items
  | .ordered => .orderedList e.startAttr e.items

/-- Apply `f` to the last element of a list (identity on `[]`). -/
def modifyLast (f : α → α) : List α → List α
  | [] => []
  | [a] => [f a]
  | a :: rest => a :: modifyLast f rest

/-- Nest a closed child list into its parent entry: append it to the parent's
last list item, creating a placeholder item (`[buildParagraph("")]`) first if
the parent has no items yet. -/
def attachChild (p : OpenList) (b : Block) : OpenList :=
  if p.items.isEmpty then { p with items := [[buildParagraph [], b]] }
  else { p with items := modifyLast (fun item => item ++ [b]) p.items }

/-- Close every open list: fold the innermost entry into its parent, and
append the resulting outermost list node to `blocks`.  (In the source the
nodes are already linked by reference and `flushListStack` merely clears the
stack; here the links are realized at close time.) -/
def collapseStack (e : OpenList) : List OpenList → Block
  | [] => materialize e
  | p :: rest => collapseStack (attachChild p (materialize e)) rest

/-- `flushListStack()`. -/
def flushListStack (st : PState) : PState :=
  match st.stack with
  | [] => st
  | e :: rest => { st with blocks := st.blocks ++ [collapseStack e rest], stack := [] }

/-- `flushParagraph()`: join the buffered lines with spaces, trim, and emit a
paragraph when non-empty; always clear the buffer. -/
def flushParagraph (st : PState) : PState :=
  if st.para.isEmpty then st
  else
    let content := jsTrim (joinSep ' ' st.para)
    { blocks := if content.isEmpty then st.blocks else st.blocks ++ [buildParagraph content],
      para := [], stack := st.stack }

/-- `flushParagraph(); flushListStack();` — run on a blank line and before
every non-list block. -/
def flushAll (st : PState) : PState := flushListStack (flushParagraph st)

/-- Append an emitted block. -/
def pushBlock (b : Block) (st : PState) : PState :=
  { st with blocks := st.blocks ++ [b] }

/-- Pop (and close) stack entries whose indent strictly exceeds the requested
indent; the tail of `ensureListContext`'s `while` loop. -/
def popDeeperGo (indent : Nat) (e : OpenList) :
    List OpenList → List Block → List OpenList × List Block
  | [], blocks =>
    if indent < e.indent then ([], blocks ++ [materialize e]) else ([e], blocks)
  | p :: rest, blocks =>
    if indent < e.indent then popDeeperGo indent (attachChild p (materialize e)) rest blocks
    else (e :: p :: rest, blocks)

/-- The popping phase of `ensureListContext`. -/
def popDeeper (indent : Nat) (st : PState) : PState :=
  match st.stack with
  | [] => st
  | e :: rest =>
    let sb := popDeeperGo indent e rest st.blocks
    { st with stack := sb.1, blocks := sb.2 }

/-- `ensureListContext(type, indent, start)`.  After popping deeper entries:
reuse the top entry when indent and kind agree; nest a new list under the top
entry when its indent is smaller; otherwise (same indent, different kind) the
top entry is popped — closed into its own parent, or into `blocks` when it
has none — and the new list is pushed in its place.  (After `popDeeper` the
top entry's indent is at most the requested indent, so the remaining case is
exactly the source's `current.indent === indent` branch.) -/
def ensureListContext (kind : LKind) (indent : Nat) (start : Option JsNumber)
    (st : PState) : PState :=
  let st1 := popDeeper indent st
  match st1.stack with
  | [] => { st1 with stack := [newOpenList kind indent start] }
  | cur :: rest =>
    if cur.indent = indent && cur.kind == kind then st1
    else if cur.indent < indent then
      { st1 with stack := newOpenList kind indent start :: cur :: rest }
    else
      match rest with
      | p :: r2 =>
        { st1 with stack := newOpenList kind indent start
            :: attachChild p (materialize cur) :: r2 }
      | [] =>
        { blocks := st1.blocks ++ [materialize cur], para := st1.para,
          stack := [newOpenList kind indent start] }

/-- Push a new list item onto the innermost open list (the entry that
`ensureListContext` just returned). -/
def pushListItem (item : List Block) (st : PState) : PState :=
  match st.stack with
  | top :: rest => { st with stack := { top with items := top.items ++ [item] } :: rest }
  | [] => st

/-- The `hasPlaceholder` test of `appendContinuationToListItem`:
`content.length === 1 && content[0].type === "text" && content[0].text === ""`
(the marks are not inspected). -/
def isPlaceholderContent (p : List Inline) : Bool :=
  match p with
  | [Inline.text [] _] => true
  | _ => false

/-- The `paragraph = item.content[0]` step of `appendContinuationToListItem`:
when the first child is not a paragraph, unshift a fresh empty paragraph. -/
def ensureLeadingParagraph (content : List Block) : List Block :=
  match content with
  | Block.paragraph _ :: _ => content
  | _ => buildParagraph [] :: content

/-- The body of `appendContinuationToListItem` acting on one item's content:
ensure the first child is a paragraph, tokenize the trimmed line, and either
return unchanged (empty tokenization), replace the placeholder, or append a
hard break plus the new inline nodes. -/
def continueItemContent (line : Str) (content : List Block) : List Block :=
  match ensureLeadingParagraph content with
  | Block.paragraph p :: rest =>
    let inline := parseMarkdownInline (jsTrim line)
    if inline.isEmpty then Block.paragraph p :: rest
    else if isPlaceholderContent p then Block.paragraph inline :: rest
    else Block.paragraph (p ++ Inline.hardBreak :: inline) :: rest
  | other => other

/-- `appendContinuationToListItem(entry, line)`: create a placeholder item when
the list has none, then rewrite the last item's content. -/
def appendContinuation (line : Str) (e : OpenList) : OpenList :=
  let items := if e.items.isEmpty then [[buildParagraph []]] else e.items
  { e with items := modifyLast (continueItemContent line) items }

/-- Continuation step on the whole state (acts on the innermost entry). -/
def contStep (line : Str) (st : PState) : PState :=
  match st.stack with
  | top :: rest => { st with stack := appendContinuation line top :: rest }
  | [] => st

/-- Buffer a paragraph line. -/
def pushParaLine (trimmed : Str) (st : PState) : PState :=
  { st with para := st.para ++ [trimmed] }

/-- End of input: `flushParagraph(); flushListStack();` and return the blocks. -/
def finishState (st : PState) : List Block :=
  (flushListStack (flushParagraph st)).blocks

/-- Opening code fence `^```([\w-]+)?\s*$` on the trimmed line: `some lang?`
when the line opens a fence. -/
def fenceLang (trimmed : Str) : Option (Option Str) :=
  match trimmed with
  | a :: b :: c :: rest =>
    if a == btChar && b == btChar && c == btChar
        && rest.all (fun ch => ch.isAlphanum || ch == '_' || ch == '-') then
      some (if rest.isEmpty then none else some rest)
    else none
  | _ => none

/-- Closing code fence `^\s*```\s*$` on a raw line. -/
def isCloseFence (l : Str) : Bool := jsTrim l == [btChar, btChar, btChar]

/-- The table lookahead: the next line exists, the current trimmed line
contains a pipe, and the next line (trimmed) is a pure separator row. -/
def tableCond (trimmed : Str) (rest : List Str) : Bool :=
  !rest.isEmpty && trimmed.contains '|' && isTableSeparator (jsTrim (rest.headD []))

/-- A table body row: non-blank after trimming and containing a pipe. -/
def isBodyRow (l : Str) : Bool :=
  let r := jsTrim l
  !r.isEmpty && r.contains '|'

/-- Blockquote line test `^\s*>\s?` (the prefix is the same on the raw and the
trailing-trimmed line). -/
def isQuoteLine (l : Str) : Bool :=
  match l.dropWhile isWs with
  | c :: _ => c == '>'
  | [] => false

/-- `line.replace(/^\s*>\s?/, "")`: strip the leading whitespace, the `>`,
and one following whitespace character if present. -/
def dequoteLine (l : Str) : Str :=
  match l.dropWhile isWs with
  | c :: t =>
    if c == '>' then
      match t with
      | w :: t2 => if isWs w then t2 else w :: t2
      | [] => []
    else l
  | [] => l

/-- Heading match `^(#{1,6})\s+(.*)$` on the trimmed line: the heading level
when the line is a heading. -/
def headingLevel (trimmed : Str) : Option Nat :=
  let n := (trimmed.takeWhile (fun c => c == '#')).length
  if 1 ≤ n && n ≤ 6 && (match trimmed.drop n with | c :: _ => isWs c | [] => false) then
    some n
  else none

/-- Bullet match `^(\s*)[-*]\s+(.*)$` on the trailing-trimmed line: leading
whitespace and item text. -/
def bulletMatch (line : Str) : Option (Str × Str) :=
  let ws := line.takeWhile isWs
  match line.dropWhile isWs with
  | m :: t =>
    if (m == '-' || m == '*') && (match t with | c :: _ => isWs c | [] => false) then
      some (ws, t.dropWhile isWs)
    else none
  | [] => none

/-- Exact mathematical value of a digit run (the literal source number,
before `Number`'s rounding to double precision). -/
def natOfDigits (ds : Str) : Nat :=
  ds.foldl (fun acc c => 10 * acc + (c.toNat - 48)) 0

/-- Floor of the base-2 logarithm by structural recursion on a fuel bound:
`log2F fuel n` is the floor logarithm whenever `n < 2 ^ fuel`. -/
def log2F : Nat → Nat → Nat
  | 0, _ => 0
  | fuel + 1, n => if n ≤ 1 then 0 else log2F fuel (n / 2) + 1

/-- Round a natural number to the nearest IEEE-754 binary64 value (53-bit
significand, round half to even), returned as an exact natural number; the
exponent is unbounded here, overflow is checked by the caller.  `bits` must
be at least the bit length of `n`. -/
def roundSig53 (bits : Nat) (n : Nat) : Nat :=
  let b := log2F bits n
  if b ≤ 52 then n
  else
    let q := b - 52
    let m := n / 2 ^ q
    let r := n % 2 ^ q
    let half := 2 ^ (q - 1)
    let m2 := if r < half then m
      else if half < r then m + 1
      else if m % 2 = 0 then m else m + 1
    m2 * 2 ^ q

/-- `Number(digits)` on a run of decimal digits: the exact literal value
rounded to the nearest double, overflowing to `Infinity` at `2 ^ 1024`.
(The bit-length fuel `25 * ds.length + 1` is sufficient for any character
list, since each step multiplies by 10 and adds a value below `2 ^ 21`.) -/
def jsNumberOfDigits (ds : Str) : JsNumber :=
  let v := roundSig53 (25 * ds.length + 1) (natOfDigits ds)
  if v < 2 ^ 1024 then .finite v else .infinity

/-- Ordered-item match `^(\s*)(\d+)\.\s+(.*)$` on the trailing-trimmed line:
leading whitespace, the digit run, and the item text. -/
def orderedMatch (line : Str) : Option (Str × Str × Str) :=
  let ws := line.takeWhile isWs
  let afterWs := line.dropWhile isWs
  let digits := afterWs.takeWhile Char.isDigit
  if digits.isEmpty then none
  else
    match afterWs.drop digits.length with
    | '.' :: t =>
      if (match t with | c :: _ => isWs c | [] => false) then
        some (ws, digits, t.dropWhile isWs)
      else none
    | _ => none

/-- Fuel measure for the line loop: one unit per line plus one per character,
so that consuming a line or shortening the text strictly decreases it. -/
def measureLines (lines : List Str) : Nat :=
  (lines.map (fun l => l.length + 1)).sum

/-! ### The block segmenter loop -/

/-- The `for` loop of `parseMarkdownBlocks` with explicit fuel.  Each source
iteration consumes at least one line, and the recursive blockquote invocation
runs on strictly less text, so `fuel = measureLines lines` suffices (see the
fuel-independence theorem below).  The blockquote branch inlines the
recursive `parseMarkdownBlocks` call, including its empty-result fallback. -/
def goLinesF : Nat → List Str → PState → List Block
  | _, [], st => finishState st
  | 0, _ :: _, st => finishState st
  | fuel + 1, rawLine :: rest, st =>
    let line := jsTrimEnd rawLine
    let trimmed := jsTrim line
    if trimmed.isEmpty then
      goLinesF fuel rest (flushAll st)
    else
      match fenceLang trimmed with
      | some language =>
        let codeLines := rest.takeWhile (fun l => !isCloseFence l)
        let rest2 := (rest.dropWhile (fun l => !isCloseFence l)).drop 1
        goLinesF fuel rest2
          (pushBlock (Block.codeBlock language (joinSep '\n' codeLines)) (flushAll st))
      | none =>
        if tableCond trimmed rest then
          let bodyLines := ((rest.drop 1).takeWhile isBodyRow).map jsTrim
          let rest2 := (rest.drop 1).dropWhile isBodyRow
          goLinesF fuel rest2 (pushBlock (buildTableNode trimmed bodyLines) (flushAll st))
        else if isQuoteLine line then
          let qlines := rawLine :: rest.takeWhile isQuoteLine
          let rest2 := rest.dropWhile isQuoteLine
          let innerLines := splitOnChar '\n' (replaceCRLF (joinSep '\n' (qlines.map dequoteLine)))
          let innerBlocks := goLinesF fuel innerLines initState
          let quoteContent := if innerBlocks.isEmpty then [buildParagraph []] else innerBlocks
          goLinesF fuel rest2 (pushBlock (Block.blockquote quoteContent) (flushAll st))
        else
          match headingLevel trimmed with
          | some n =>
            goLinesF fuel rest
              (pushBlock (Block.heading n
                (parseMarkdownInline ((trimmed.drop n).dropWhile isWs))) (flushAll st))
          | none =>
            match bulletMatch line with
            | some (ws, text) =>
              let st1 := ensureListContext .bullet (getLineIndent ws) none (flushParagraph st)
              goLinesF fuel rest (pushListItem [buildParagraph text] st1)
            | none =>
              match orderedMatch line with
              | some (ws, digits, text) =>
                let st1 := ensureListContext .ordered (getLineIndent ws)
                  (some (jsNumberOfDigits digits)) (flushParagraph st)
                goLinesF fuel rest (pushListItem [buildParagraph text] st1)
              | none =>
                match st.stack with
                | top :: _ =>
                  if top.indent < getLineIndent line then
                    goLinesF fuel rest (contStep line st)
                  else
                    goLinesF fuel rest (pushParaLine trimmed (flushListStack st))
                | [] =>
                  goLinesF fuel rest (pushParaLine trimmed st)

/-- `parseMarkdownBlocks(text)`: normalize line endings, split into lines,
run the loop, and fall back to a single empty paragraph when no block was
produced. -/
def parseMarkdownBlocks (text : Str) : List Block :=
  let lines := splitOnChar '\n' (replaceCRLF text)
  let blocks := goLinesF (measureLines lines) lines initState
  if blocks.isEmpty then [buildParagraph []] else blocks

/-- `createTextADF(text)`: the version-1 document around the parsed blocks. -/
def createTextADF (text : Str) : Document :=
  { version := 1, content := parseMarkdownBlocks text }

example : parseMarkdownBlocks "".data = [.paragraph [emptyTextNode]] := by rfl
example : parseMarkdownBlocks "hello".data = [.paragraph [.text "hello".data []]] := by rfl
example : parseMarkdownBlocks "# Hi".data = [.heading 1 [.text "Hi".data []]] := by rfl
example : parseMarkdownBlocks "- a\n  - b".data =
    [.bulletList [[.paragraph [.text "a".data []],
      .bulletList [[.paragraph [.text "b".data []]]]]]] := by rfl
example : parseMarkdownBlocks "5. x\n6. y".data =
    [.orderedList (some (.finite 5)) [[.paragraph [.text "x".data []]],
      [.paragraph [.text "y".data []]]]] := by rfl
example : parseMarkdownBlocks "> line1\n> line2".data =
    [.blockquote [.paragraph [.text "line1 line2".data []]]] := by rfl
example : parseMarkdownBlocks "- x\n\n- y".data =
    [.bulletList [[.paragraph [.text "x".data []]]],
     .bulletList [[.paragraph [.text "y".data []]]]] := by rfl
example : parseMarkdownBlocks "Header A | Header B\n---|---\n1|2".data =
    [.table [[⟨true, [.text "Header A".data []]⟩, ⟨true, [.text "Header B".data []]⟩],
             [⟨false, [.text "1".data []]⟩, ⟨false, [.text "2".data []]⟩]]] := by rfl
example : parseMarkdownBlocks "a|b\n---|---\n1|2|3".data =
    [.table [[⟨true, [.text "a".data []]⟩, ⟨true, [.text "b".data []]⟩],
             [⟨false, [.text "1".data []]⟩, ⟨false, [.text "2".data []]⟩,
              ⟨false, [.text "3".data []]⟩]]] := by rfl

/-! ### Observation helpers used by the theorems -/

/-- Cell count of every row of a table block (`[]` for non-tables). -/
def tableRowLengths : Block → List Nat
  | .table rows => rows.map List.length
  | _ => []

/-! ### C2 — non-empty output, empty-string result -/

theorem parseMarkdownBlocks_ne_nil (s : Str) : parseMarkdownBlocks s ≠ [] := by
  unfold parseMarkdownBlocks
  dsimp only
  split
  · simp
  · next h => simpa [List.isEmpty_iff] using h

/-- C2: for every input string `parseMarkdownBlocks` returns at least one
block, and on the empty string it returns exactly one paragraph containing
one empty, unmarked text node. -/
theorem parse_blocks_nonempty_and_empty_input :
    (∀ s : Str, parseMarkdownBlocks s ≠ []) ∧
      parseMarkdownBlocks [] = [Block.paragraph [Inline.text [] []]] :=
  ⟨parseMarkdownBlocks_ne_nil, rfl⟩

/-! ### C3 — table row widths are not normalized to the header row -/

/-- C3 counterexample: on `"a|b\n---|---\n1|2|3"` the converter produces one
table whose header row has 2 cells (the header row's split length) but whose
body row has 3 cells, so not every row has the header row's split count. -/
theorem table_ragged_row_counterexample :
    (parseMarkdownBlocks "a|b\n---|---\n1|2|3".data).map tableRowLengths = [[2, 3]] ∧
      (splitTableRow (jsTrim (jsTrimEnd "a|b".data))).length = 2 ∧ (3 : Nat) ≠ 2 :=
  ⟨rfl, rfl, by decide⟩

/-- C3 (amended): every row of a produced table has exactly as many cells as
that row's own source-line split — the header row the header line's split,
each body row its own line's split — with no re-validation against the
header width (ragged rows are accepted as-is). -/
theorem table_rows_match_own_split :
    ∀ (headerLine : Str) (bodyLines : List Str),
      tableRowLengths (buildTableNode headerLine bodyLines) =
        (splitTableRow headerLine).length ::
          bodyLines.map (fun l => (splitTableRow l).length) := by
  intro headerLine bodyLines
  simp [tableRowLengths, buildTableNode]

/-! ### C4 — a blank line flushes the paragraph and collapses the whole stack -/

/-- C4: the blank-line step (`flushParagraph(); flushListStack();`) leaves no
open list and no buffered paragraph line; the paragraph buffer is emitted as
one paragraph block exactly when its joined, trimmed content is non-empty;
when lists are open, the entire stack is collapsed into a single outermost
list block appended to the output (all levels close, not just the
innermost); in particular a blank line between two same-indent list items
yields two separate top-level bullet lists. -/
theorem blank_line_flushes_and_collapses :
    (∀ st : PState, (flushAll st).stack = [] ∧ (flushAll st).para = []) ∧
      (∀ st : PState, (flushParagraph st).blocks = st.blocks ++
        (if (jsTrim (joinSep ' ' st.para)).isEmpty then []
         else [buildParagraph (jsTrim (joinSep ' ' st.para))])) ∧
      (∀ (st : PState) (e : OpenList) (rest : List OpenList), st.stack = e :: rest →
        (flushAll st).blocks = (flushParagraph st).blocks ++ [collapseStack e rest]) ∧
      parseMarkdownBlocks "- x\n\n- y".data =
        [Block.bulletList [[Block.paragraph [Inline.text ['x'] []]]],
         Block.bulletList [[Block.paragraph [Inline.text ['y'] []]]]] := by
  have hstack : ∀ st : PState, (flushParagraph st).stack = st.stack := by
    intro st
    unfold flushParagraph
    split <;> rfl
  have hflsStack : ∀ st : PState, (flushListStack st).stack = [] := by
    intro st
    unfold flushListStack
    split <;> simp_all
  have hflsPara : ∀ st : PState, (flushListStack st).para = st.para := by
    intro st
    unfold flushListStack
    split <;> rfl
  have hfpPara : ∀ st : PState, (flushParagraph st).para = [] := by
    intro st
    unfold flushParagraph
    split <;> simp_all [List.isEmpty_iff]
  refine ⟨?_, ?_, ?_, by rfl⟩
  · intro st
    refine ⟨hflsStack _, ?_⟩
    show (flushListStack (flushParagraph st)).para = []
    rw [hflsPara, hfpPara]
  · intro st
    unfold flushParagraph
    split <;> rename_i hp
    · simp_all [List.isEmpty_iff, joinSep, jsTrim, jsTrimEnd]
    · split <;> simp_all [List.isEmpty_iff]
  · intro st e rest hst
    show (flushListStack (flushParagraph st)).blocks = _
    unfold flushListStack
    split <;> rename_i heq
    · rw [hstack st, hst] at heq
      cases heq
    · rw [hstack st, hst] at heq
      cases heq
      rfl

/-- C4 witness: the blank-line step at a concrete state with one buffered
line and two open lists. -/
theorem blank_line_flushes_and_collapses_witness :
    (flushAll ⟨[], [['p']], [⟨.bullet, 2, none, [[buildParagraph ['b']]]⟩,
        ⟨.bullet, 0, none, [[buildParagraph ['a']]]⟩]⟩).blocks =
      (flushParagraph ⟨[], [['p']], [⟨.bullet, 2, none, [[buildParagraph ['b']]]⟩,
        ⟨.bullet, 0, none, [[buildParagraph ['a']]]⟩]⟩).blocks ++
        [collapseStack ⟨.bullet, 2, none, [[buildParagraph ['b']]]⟩
          [⟨.bullet, 0, none, [[buildParagraph ['a']]]⟩]] :=
  blank_line_flushes_and_collapses.2.2.1
    ⟨[], [['p']], [⟨.bullet, 2, none, [[buildParagraph ['b']]]⟩,
      ⟨.bullet, 0, none, [[buildParagraph ['a']]]⟩]⟩
    ⟨.bullet, 2, none, [[buildParagraph ['b']]]⟩
    [⟨.bullet, 0, none, [[buildParagraph ['a']]]⟩] rfl

/-! ### C5 — ordered-list start attribute -/

theorem char_toNat_lt (c : Char) : c.toNat < 2 ^ 21 := by
  have h := c.valid
  rcases h with h | ⟨h1, h2⟩
  · simp only [Char.toNat]
    omega
  · simp only [Char.toNat]
    omega

theorem foldl_digits_lt :
    ∀ (ds : Str) (acc : Nat),
      ds.foldl (fun a c => 10 * a + (c.toNat - 48)) acc <
        (acc + 1) * 2 ^ (25 * ds.length) := by
  intro ds
  induction ds with
  | nil =>
    intro acc
    simp
  | cons c t ih =>
    intro acc
    rw [List.foldl_cons]
    have h1 := ih (10 * acc + (c.toNat - 48))
    have hc : c.toNat - 48 < 2 ^ 21 := lt_of_le_of_lt (Nat.sub_le _ _) (char_toNat_lt c)
    have hstep : 10 * acc + (c.toNat - 48) + 1 ≤ (acc + 1) * 2 ^ 25 := by
      have h21 : (2 : Nat) ^ 21 = 2097152 := by norm_num
      have h25 : (2 : Nat) ^ 25 = 33554432 := by norm_num
      rw [h25]
      omega
    have key : (10 * acc + (c.toNat - 48) + 1) * 2 ^ (25 * t.length) ≤
        (acc + 1) * 2 ^ (25 * (t.length + 1)) := by
      calc (10 * acc + (c.toNat - 48) + 1) * 2 ^ (25 * t.length)
          ≤ ((acc + 1) * 2 ^ 25) * 2 ^ (25 * t.length) :=
            Nat.mul_le_mul_right _ hstep
        _ = (acc + 1) * 2 ^ (25 * (t.length + 1)) := by
            rw [mul_assoc, ← pow_add]
            ring_nf
    have hlen : (c :: t).length = t.length + 1 := rfl
    rw [hlen]
    omega

theorem natOfDigits_lt (ds : Str) : natOfDigits ds < 2 ^ (25 * ds.length + 1) := by
  have h := foldl_digits_lt ds 0
  rw [natOfDigits]
  have hmono : (2 : Nat) ^ (25 * ds.length) ≤ 2 ^ (25 * ds.length + 1) :=
    Nat.pow_le_pow_right (by norm_num) (by omega)
  omega

theorem log2F_zero : ∀ fuel : Nat, log2F fuel 0 = 0 := by
  intro fuel
  cases fuel <;> simp [log2F]

theorem log2F_le : ∀ (fuel : Nat) {n : Nat}, 1 ≤ n → n < 2 ^ fuel →
    2 ^ log2F fuel n ≤ n := by
  intro fuel
  induction fuel with
  | zero =>
    intro n h1 h2
    simp at h2
    omega
  | succ f ih =>
    intro n h1 h2
    rw [log2F]
    split
    · simpa using h1
    · next hn =>
      have h2' : n / 2 < 2 ^ f := by
        rw [pow_succ] at h2
        omega
      have h1' : 1 ≤ n / 2 := by omega
      have := ih h1' h2'
      rw [pow_succ]
      omega

theorem roundSig53_eq_of_lt {bits n : Nat} (h1 : n < 2 ^ bits) (h2 : n < 2 ^ 53) :
    roundSig53 bits n = n := by
  unfold roundSig53
  dsimp only
  split
  · rfl
  · next hb =>
    exfalso
    rcases Nat.eq_zero_or_pos n with rfl | hn1
    · rw [log2F_zero] at hb
      omega
    · have hle := log2F_le bits hn1 h1
      have h53 : 53 ≤ log2F bits n := by omega
      have : (2 : Nat) ^ 53 ≤ 2 ^ log2F bits n :=
        Nat.pow_le_pow_right (by norm_num) h53
      omega

theorem jsNumberOfDigits_exact :
    ∀ ds : Str, natOfDigits ds < 2 ^ 53 →
      jsNumberOfDigits ds = .finite (natOfDigits ds) := by
  intro ds h
  unfold jsNumberOfDigits
  dsimp only
  rw [roundSig53_eq_of_lt (natOfDigits_lt ds) h]
  rw [if_pos]
  exact lt_of_lt_of_le h (Nat.pow_le_pow_right (by norm_num) (by norm_num))

/-- C5 counterexample: `Number` rounds digit literals to the nearest double,
so on `"10000000000000001. x"` (a literal above `2 ^ 53`) the produced
ordered list stores `order = 10000000000000000`, which differs from the
literal source number `10000000000000001` — the start attribute is present
but does not equal the literal number written on the creating line. -/
theorem ordered_start_rounding_counterexample :
    parseMarkdownBlocks ("10000000000000001. x").data =
      [Block.orderedList (some (JsNumber.finite 10000000000000000))
        [[Block.paragraph [Inline.text ['x'] []]]]] ∧
      natOfDigits ("10000000000000001").data = 10000000000000001 ∧
      (10000000000000000 : Nat) ≠ 10000000000000001 :=
  ⟨rfl, rfl, by decide⟩

/-- C5 (amended): a created ordered list records `Number(digits)` — the
creating line's literal number rounded to the nearest IEEE-754 double, which
equals the literal exactly when it is below `2 ^ 53` — as its `order`
attribute exactly when that value is truthy (non-zero), materialization
preserves it, and `"5. x\n6. y"` yields one ordered list with start 5 and
items "x", "y". -/
theorem ordered_list_start_attribute :
    parseMarkdownBlocks "5. x\n6. y".data =
      [Block.orderedList (some (.finite 5)) [[Block.paragraph [Inline.text ['x'] []]],
        [Block.paragraph [Inline.text ['y'] []]]]] ∧
      (∀ (indent : Nat) (v : JsNumber),
        (newOpenList .ordered indent (some v)).startAttr =
          if v = JsNumber.finite 0 then none else some v) ∧
      (∀ (indent : Nat) (s : Option JsNumber) (items : List (List Block)),
        materialize ⟨.ordered, indent, s, items⟩ = .orderedList s items) ∧
      (∀ ds : Str, natOfDigits ds < 2 ^ 53 →
        jsNumberOfDigits ds = .finite (natOfDigits ds)) := by
  refine ⟨rfl, ?_, ?_, jsNumberOfDigits_exact⟩
  · intro indent v
    rfl
  · intro indent s items
    rfl

/-- C5 witness: the digit run `"5"` is below `2 ^ 53`, so its stored value
is exactly the literal 5. -/
theorem ordered_list_start_attribute_witness :
    natOfDigits ['5'] < 2 ^ 53 ∧ jsNumberOfDigits ['5'] = .finite (natOfDigits ['5']) :=
  ⟨by decide, ordered_list_start_attribute.2.2.2 ['5'] (by decide)⟩

/-! ### C6 — deeper-indented bullets nest under the innermost list -/

/-- C6: a list line strictly deeper than the innermost open list pushes a
fresh entry for a new nested list on top of the stack (the top entry becomes
its parent); when the child closes it is appended to the parent's last list
item (via `attachChild`); and `"- a\n  - b"` produces one bullet list whose
single item holds the paragraph "a" followed by the nested bullet list with
the single item "b". -/
theorem nested_bullet_list_structure :
    parseMarkdownBlocks "- a\n  - b".data =
      [Block.bulletList [[Block.paragraph [Inline.text ['a'] []],
        Block.bulletList [[Block.paragraph [Inline.text ['b'] []]]]]]] ∧
      (∀ (blocks : List Block) (para : List Str) (kind : LKind) (indent : Nat)
          (s : Option JsNumber) (top : OpenList) (rest : List OpenList),
        top.indent < indent →
          ensureListContext kind indent s ⟨blocks, para, top :: rest⟩ =
            ⟨blocks, para, newOpenList kind indent s :: top :: rest⟩) ∧
      (∀ (e p : OpenList) (rest : List OpenList),
        collapseStack e (p :: rest) = collapseStack (attachChild p (materialize e)) rest) := by
  refine ⟨rfl, ?_, ?_⟩
  · intro blocks para kind indent s top rest hlt
    have hne : ¬ top.indent = indent := Nat.ne_of_lt hlt
    have hnl : ¬ indent < top.indent := Nat.not_lt.mpr (Nat.le_of_lt hlt)
    unfold ensureListContext popDeeper
    cases rest with
    | nil => simp [popDeeperGo, hne, hnl, hlt]
    | cons p r2 => simp [popDeeperGo, hne, hnl, hlt]
  · intro e p rest
    rfl

/-- C6 witness: the nesting step at a concrete stack with a top entry of
indent 0 and a requested indent of 2. -/
theorem nested_bullet_list_structure_witness :
    ensureListContext .bullet 2 none ⟨[], [], [⟨.bullet, 0, none, [[buildParagraph ['a']]]⟩]⟩ =
      ⟨[], [], [newOpenList .bullet 2 none, ⟨.bullet, 0, none, [[buildParagraph ['a']]]⟩]⟩ :=
  nested_bullet_list_structure.2.1 [] [] .bullet 2 none
    ⟨.bullet, 0, none, [[buildParagraph ['a']]]⟩ [] (by decide)

/-! ### Tokenizer lemmas -/

/-- A character the inline tokenizer can react to: tilde, the four
single-character delimiters, or the closing bracket. -/
def isDelimChar (c : Char) : Bool := c == '~' || isSingleSpecial c

theorem matchDelim2_ne_head {d c : Char} (t : Str) (h : (c == d) = false) :
    matchDelim2 d (c :: t) = none := by
  cases t with
  | nil => rfl
  | cons b u => simp [matchDelim2, h]

theorem matchDelim1_ne_head {d c : Char} (t : Str) (h : (c == d) = false) :
    matchDelim1 d (c :: t) = none := by
  simp [matchDelim1, h]

theorem matchLink_ne_head {c : Char} (t : Str) (h : (c == '[') = false) :
    matchLink (c :: t) = none := by
  simp [matchLink, h]

theorem tryPatterns_eq_none {s : Str} (h : ∀ c ∈ s, isDelimChar c = false) :
    tryPatterns s = none := by
  cases s with
  | nil => rfl
  | cons c t =>
    have hc := h c (List.mem_cons_self c t)
    simp only [isDelimChar, isSingleSpecial, Bool.or_eq_false_iff] at hc
    obtain ⟨h1, ⟨⟨⟨⟨h2, h3⟩, h4⟩, h5⟩, h6⟩⟩ := hc
    rw [tryPatterns, matchDelim2_ne_head t h1, matchDelim2_ne_head t h2,
      matchDelim1_ne_head t h2, matchDelim2_ne_head t h3, matchDelim1_ne_head t h3,
      matchDelim1_ne_head t h4, matchLink_ne_head t h5]

theorem nextSpecial_eq_none {s : Str} (h : ∀ c ∈ s, isDelimChar c = false) :
    nextSpecial s = none := by
  induction s with
  | nil => rfl
  | cons c t ih =>
    have hc := h c (List.mem_cons_self c t)
    simp only [isDelimChar, Bool.or_eq_false_iff] at hc
    have ht : nextSpecial t = none := ih (fun x hx => h x (List.mem_cons_of_mem c hx))
    simp [nextSpecial, hc.1, hc.2, ht]

/-! ### C9 — plain text round-trips through the tokenizer -/

/-- C9 counterexample: the empty string contains no special delimiter
characters, yet the tokenizer returns zero nodes for it, not one unmarked
text node equal to the input. -/
theorem inline_plain_empty_counterexample :
    parseMarkdownInline ([] : Str) = [] ∧
      ([] : List Inline) ≠ [Inline.text [] []] := by
  exact ⟨rfl, by simp⟩

/-- C9 (amended): for every non-empty string without special delimiter
characters, the tokenizer yields exactly one unmarked text node whose text
is the input string. -/
theorem inline_plain_text_roundtrip :
    ∀ s : Str, s ≠ [] → (∀ c ∈ s, isDelimChar c = false) →
      parseMarkdownInline s = [Inline.text s []] := by
  intro s hne hd
  cases s with
  | nil => exact absurd rfl hne
  | cons c t =>
    show parseInlineF (c :: t).length (c :: t) = _
    rw [List.length_cons]
    rw [parseInlineF, tryPatterns_eq_none hd, nextSpecial_eq_none hd]

/-- C9 witness: the plain string `"abc"`. -/
theorem inline_plain_text_roundtrip_witness :
    parseMarkdownInline "abc".data = [Inline.text "abc".data []] :=
  inline_plain_text_roundtrip "abc".data (by decide) (by decide)

theorem matchDelim2_some_inner {d : Char} {s inner rest : Str}
    (h : matchDelim2 d s = some (inner, rest)) : inner.isEmpty = false := by
  rcases s with _ | ⟨a, _ | ⟨b, t⟩⟩
  · simp [matchDelim2] at h
  · simp [matchDelim2] at h
  · rw [matchDelim2] at h
    dsimp only at h
    split at h
    · split at h
      · split at h
        · cases h
          simp_all
        · cases h
      · cases h
    · cases h

theorem matchDelim1_some_inner {d : Char} {s inner rest : Str}
    (h : matchDelim1 d s = some (inner, rest)) : inner.isEmpty = false := by
  rcases s with _ | ⟨a, t⟩
  · simp [matchDelim1] at h
  · rw [matchDelim1] at h
    dsimp only at h
    split at h
    · split at h
      · split at h
        · cases h
          simp_all
        · cases h
      · cases h
    · cases h

theorem matchLink_some_text {s txt href rest : Str}
    (h : matchLink s = some (txt, href, rest)) : txt.isEmpty = false := by
  rcases s with _ | ⟨a, t⟩
  · simp [matchLink] at h
  · rw [matchLink] at h
    dsimp only at h
    split at h
    · split at h
      · split at h
        · split at h
          · split at h
            · cases h
              simp_all
            · cases h
          · cases h
        · cases h
      · cases h
    · cases h

/-- Every node the pattern phase emits is a text node with exactly one mark
and a non-empty payload. -/
theorem tryPatterns_some_shape {s : Str} {node : Inline} {rest : Str}
    (h : tryPatterns s = some (node, rest)) :
    ∃ t m, node = Inline.text t [m] ∧ t.isEmpty = false := by
  rw [tryPatterns] at h
  split at h
  · next heq =>
    cases h
    exact ⟨_, _, rfl, matchDelim2_some_inner heq⟩
  · split at h
    · next heq =>
      cases h
      exact ⟨_, _, rfl, matchDelim2_some_inner heq⟩
    · split at h
      · next heq =>
        cases h
        exact ⟨_, _, rfl, matchDelim1_some_inner heq⟩
      · split at h
        · next heq =>
          cases h
          exact ⟨_, _, rfl, matchDelim2_some_inner heq⟩
        · split at h
          · next heq =>
            cases h
            exact ⟨_, _, rfl, matchDelim1_some_inner heq⟩
          · split at h
            · next heq =>
              cases h
              exact ⟨_, _, rfl, matchDelim1_some_inner heq⟩
            · split at h
              · next heq =>
                cases h
                exact ⟨_, _, rfl, matchLink_some_text heq⟩
              · cases h

/-- A text node with a non-empty payload (`hardBreak` does not qualify). -/
def isNonEmptyTextNode : Inline → Bool
  | .text t _ => !t.isEmpty
  | .hardBreak => false

/-- At most one mark (`hardBreak` carries none). -/
def marksLe1 : Inline → Bool
  | .text _ ms => decide (ms.length ≤ 1)
  | .hardBreak => true

/-- Every node the tokenizer loop emits is a non-empty text node carrying at
most one mark, for any fuel. -/
theorem parseInlineF_nodes :
    ∀ (fuel : Nat) (s : Str),
      (parseInlineF fuel s).all (fun n => isNonEmptyTextNode n && marksLe1 n) = true := by
  intro fuel
  induction fuel with
  | zero =>
    intro s
    cases s <;> rfl
  | succ f ih =>
    intro s
    cases s with
    | nil => rfl
    | cons c t =>
      rw [parseInlineF]
      split
      · next node rest heq =>
        obtain ⟨tt, m, hnode, hne⟩ := tryPatterns_some_shape heq
        subst hnode
        rw [List.all_cons, Bool.and_eq_true]
        exact ⟨by simp [isNonEmptyTextNode, marksLe1, hne], ih rest⟩
      · split
        · simp [isNonEmptyTextNode, marksLe1]
        · rw [List.all_cons, Bool.and_eq_true]
          exact ⟨by simp [isNonEmptyTextNode, marksLe1], ih t⟩
        · rw [List.all_cons, Bool.and_eq_true]
          refine ⟨?_, ih _⟩
          simp [isNonEmptyTextNode, marksLe1]

/-- The tokenizer wrapper inherits the node-shape property. -/
theorem parseMarkdownInline_nodes (s : Str) :
    (parseMarkdownInline s).all (fun n => isNonEmptyTextNode n && marksLe1 n) = true :=
  parseInlineF_nodes s.length s

/-! ### A structural invariant over produced documents

`blockP pp` holds when every paragraph-like inline content of a block
satisfies `pp`; it is proved below to be preserved by the whole segmenter
for any `pp` closed under the three ways the segmenter builds inline
content. -/

mutual

def blockP (pp : List Inline → Bool) : Block → Bool
  | .paragraph c => pp c
  | .heading _ c => pp c
  | .codeBlock _ _ => true
  | .blockquote content => blocksP pp content
  | .bulletList items => itemsP pp items
  | .orderedList _ items => itemsP pp items
  | .table rows => rows.all (fun row => row.all (fun cell => pp cell.para))

def blocksP (pp : List Inline → Bool) : List Block → Bool
  | [] => true
  | b :: r => blockP pp b && blocksP pp r

def itemsP (pp : List Inline → Bool) : List (List Block) → Bool
  | [] => true
  | it :: r => blocksP pp it && itemsP pp r

end

/-- The invariant on the segmenter's running state: all emitted blocks and
all items of every open list satisfy the predicate. -/
def stInv (pp : List Inline → Bool) (st : PState) : Prop :=
  blocksP pp st.blocks = true ∧ ∀ e ∈ st.stack, itemsP pp e.items = true

theorem blocksP_append (pp : List Inline → Bool) (a b : List Block) :
    blocksP pp (a ++ b) = (blocksP pp a && blocksP pp b) := by
  induction a with
  | nil => simp [blocksP]
  | cons x r ih => simp [blocksP, ih, Bool.and_assoc]

theorem itemsP_append (pp : List Inline → Bool) (a b : List (List Block)) :
    itemsP pp (a ++ b) = (itemsP pp a && itemsP pp b) := by
  induction a with
  | nil => simp [itemsP]
  | cons x r ih => simp [itemsP, ih, Bool.and_assoc]

theorem itemsP_modifyLast {pp : List Inline → Bool} {f : List Block → List Block}
    (hf : ∀ it, blocksP pp it = true → blocksP pp (f it) = true) :
    ∀ items, itemsP pp items = true → itemsP pp (modifyLast f items) = true := by
  intro items
  induction items with
  | nil => intro h; exact h
  | cons it r ih =>
    cases r with
    | nil =>
      intro hh
      rw [itemsP, Bool.and_eq_true] at hh
      rw [modifyLast, itemsP, Bool.and_eq_true]
      exact ⟨hf it hh.1, hh.2⟩
    | cons b r2 =>
      intro hh
      rw [itemsP, Bool.and_eq_true] at hh
      rw [modifyLast]
      · rw [itemsP, Bool.and_eq_true]
        exact ⟨hh.1, ih hh.2⟩
      · simp

theorem blockP_materialize (pp : List Inline → Bool) (e : OpenList) :
    blockP pp (materialize e) = itemsP pp e.items := by
  rcases e with ⟨k, i, s, items⟩
  cases k <;> simp [materialize, blockP]

theorem blockP_buildParagraph {pp : List Inline → Bool}
    (hP1 : ∀ s, pp (inlineOrPlaceholder s) = true) (s : Str) :
    blockP pp (buildParagraph s) = true := by
  simp [buildParagraph, blockP, hP1]

theorem itemsP_attachChild {pp : List Inline → Bool}
    (hP1 : ∀ s, pp (inlineOrPlaceholder s) = true) (p : OpenList) (b : Block)
    (hp : itemsP pp p.items = true) (hb : blockP pp b = true) :
    itemsP pp (attachChild p b).items = true := by
  unfold attachChild
  split
  · simp [itemsP, blocksP, hb, blockP_buildParagraph hP1]
  · simp only
    refine itemsP_modifyLast (fun it hit => ?_) _ hp
    rw [blocksP_append]
    simp [hit, blocksP, hb]

theorem blockP_collapseStack {pp : List Inline → Bool}
    (hP1 : ∀ s, pp (inlineOrPlaceholder s) = true) :
    ∀ (stack : List OpenList) (e : OpenList), itemsP pp e.items = true →
      (∀ p ∈ stack, itemsP pp p.items = true) →
      blockP pp (collapseStack e stack) = true := by
  intro stack
  induction stack with
  | nil =>
    intro e he _
    rw [collapseStack, blockP_materialize]
    exact he
  | cons p r ih =>
    intro e he hall
    rw [collapseStack]
    refine ih _ ?_ (fun q hq => hall q (List.mem_cons_of_mem p hq))
    refine itemsP_attachChild hP1 p _ (hall p (List.mem_cons_self p r)) ?_
    rw [blockP_materialize]
    exact he

theorem stInv_flushParagraph {pp : List Inline → Bool}
    (hP1 : ∀ s, pp (inlineOrPlaceholder s) = true) {st : PState}
    (h : stInv pp st) : stInv pp (flushParagraph st) := by
  obtain ⟨hb, hs⟩ := h
  unfold flushParagraph
  split
  · exact ⟨hb, hs⟩
  · dsimp only
    refine ⟨?_, hs⟩
    split
    · exact hb
    · rw [blocksP_append]
      simp [hb, blocksP, blockP_buildParagraph hP1]

theorem stInv_flushListStack {pp : List Inline → Bool}
    (hP1 : ∀ s, pp (inlineOrPlaceholder s) = true) {st : PState}
    (h : stInv pp st) : stInv pp (flushListStack st) := by
  obtain ⟨hb, hs⟩ := h
  unfold flushListStack
  split
  · exact ⟨hb, hs⟩
  · next e rest heq =>
    refine ⟨?_, by simp⟩
    rw [blocksP_append]
    have hall : ∀ p ∈ e :: rest, itemsP pp p.items = true := by
      rw [← heq]
      exact hs
    simp [hb, blocksP,
      blockP_collapseStack hP1 rest e (hall e (List.mem_cons_self e rest))
        (fun q hq => hall q (List.mem_cons_of_mem e hq))]

theorem stInv_flushAll {pp : List Inline → Bool}
    (hP1 : ∀ s, pp (inlineOrPlaceholder s) = true) {st : PState}
    (h : stInv pp st) : stInv pp (flushAll st) :=
  stInv_flushListStack hP1 (stInv_flushParagraph hP1 h)

theorem blocksP_finishState {pp : List Inline → Bool}
    (hP1 : ∀ s, pp (inlineOrPlaceholder s) = true) {st : PState}
    (h : stInv pp st) : blocksP pp (finishState st) = true :=
  (stInv_flushListStack hP1 (stInv_flushParagraph hP1 h)).1

theorem stInv_pushBlock {pp : List Inline → Bool} {b : Block} {st : PState}
    (hb : blockP pp b = true) (h : stInv pp st) : stInv pp (pushBlock b st) := by
  obtain ⟨hbl, hs⟩ := h
  refine ⟨?_, hs⟩
  rw [pushBlock]
  simp only
  rw [blocksP_append]
  simp [hbl, blocksP, hb]

theorem stInv_pushParaLine {pp : List Inline → Bool} {t : Str} {st : PState}
    (h : stInv pp st) : stInv pp (pushParaLine t st) := by
  obtain ⟨hb, hs⟩ := h
  exact ⟨hb, hs⟩

theorem stInv_popDeeperGo {pp : List Inline → Bool}
    (hP1 : ∀ s, pp (inlineOrPlaceholder s) = true) (indent : Nat) :
    ∀ (rest : List OpenList) (e : OpenList) (blocks : List Block),
      itemsP pp e.items = true → (∀ p ∈ rest, itemsP pp p.items = true) →
      blocksP pp blocks = true →
      blocksP pp (popDeeperGo indent e rest blocks).2 = true ∧
        ∀ q ∈ (popDeeperGo indent e rest blocks).1, itemsP pp q.items = true := by
  intro rest
  induction rest with
  | nil =>
    intro e blocks he _ hb
    rw [popDeeperGo]
    split
    · refine ⟨?_, by simp⟩
      rw [blocksP_append]
      simp [hb, blocksP, blockP_materialize, he]
    · refine ⟨hb, ?_⟩
      intro q hq
      rcases List.mem_singleton.mp hq with rfl
      exact he
  | cons p r ih =>
    intro e blocks he hall hb
    rw [popDeeperGo]
    split
    · refine ih _ _ ?_ (fun q hq => hall q (List.mem_cons_of_mem p hq)) hb
      refine itemsP_attachChild hP1 p _ (hall p (List.mem_cons_self p r)) ?_
      rw [blockP_materialize]
      exact he
    · refine ⟨hb, ?_⟩
      intro q hq
      rcases List.mem_cons.mp hq with rfl | hq2
      · exact he
      · exact hall q hq2

theorem stInv_popDeeper {pp : List Inline → Bool}
    (hP1 : ∀ s, pp (inlineOrPlaceholder s) = true) (indent : Nat) {st : PState}
    (h : stInv pp st) : stInv pp (popDeeper indent st) := by
  obtain ⟨hb, hs⟩ := h
  unfold popDeeper
  split
  · exact ⟨hb, hs⟩
  · next e rest heq =>
    have hall : ∀ p ∈ e :: rest, itemsP pp p.items = true := by
      rw [← heq]
      exact hs
    have := stInv_popDeeperGo hP1 indent rest e st.blocks
      (hall e (List.mem_cons_self e rest))
      (fun q hq => hall q (List.mem_cons_of_mem e hq)) hb
    exact ⟨this.1, this.2⟩

theorem stInv_ensureListContext {pp : List Inline → Bool}
    (hP1 : ∀ s, pp (inlineOrPlaceholder s) = true) (kind : LKind) (indent : Nat)
    (start : Option JsNumber) {st : PState} (h : stInv pp st) :
    stInv pp (ensureListContext kind indent start st) := by
  have h1 := stInv_popDeeper hP1 indent h
  obtain ⟨hb, hs⟩ := h1
  unfold ensureListContext
  dsimp only
  split
  · next heq =>
    refine ⟨hb, ?_⟩
    intro q hq
    rcases List.mem_singleton.mp hq with rfl
    simp [newOpenList, itemsP]
  · next cur rest heq =>
    have hall : ∀ p ∈ cur :: rest, itemsP pp p.items = true := by
      rw [← heq]
      exact hs
    split
    · exact ⟨hb, hs⟩
    · split
      · refine ⟨hb, ?_⟩
        intro q hq
        rcases List.mem_cons.mp hq with rfl | hq2
        · simp [newOpenList, itemsP]
        · rw [← heq] at hq2
          exact hs q hq2
      · split
        · next p r2 =>
          refine ⟨hb, ?_⟩
          intro q hq
          rcases List.mem_cons.mp hq with rfl | hq2
          · simp [newOpenList, itemsP]
          · rcases List.mem_cons.mp hq2 with rfl | hq3
            · refine itemsP_attachChild hP1 p _
                (hall p (List.mem_cons_of_mem cur (List.mem_cons_self p r2))) ?_
              rw [blockP_materialize]
              exact hall cur (List.mem_cons_self cur _)
            · exact hall q (List.mem_cons_of_mem cur (List.mem_cons_of_mem p hq3))
        · refine ⟨?_, ?_⟩
          · rw [blocksP_append]
            simp [hb, blocksP, blockP_materialize, hall cur (by simp)]
          · intro q hq
            rcases List.mem_singleton.mp hq with rfl
            simp [newOpenList, itemsP]

theorem stInv_pushListItem {pp : List Inline → Bool} {item : List Block}
    (hitem : blocksP pp item = true) {st : PState} (h : stInv pp st) :
    stInv pp (pushListItem item st) := by
  obtain ⟨hb, hs⟩ := h
  unfold pushListItem
  split
  case h_2 => exact ⟨hb, hs⟩
  case h_1 top rest heq =>
    have hall : ∀ p ∈ top :: rest, itemsP pp p.items = true := by
      rw [← heq]
      exact hs
    refine ⟨hb, ?_⟩
    intro q hq
    rcases List.mem_cons.mp hq with rfl | hq2
    · dsimp only
      rw [itemsP_append]
      simp [hall top (List.mem_cons_self top rest), itemsP, hitem]
    · exact hall q (List.mem_cons_of_mem top hq2)

theorem blocksP_continueItemContent {pp : List Inline → Bool}
    (hP1 : ∀ s, pp (inlineOrPlaceholder s) = true)
    (hP2 : ∀ s, pp (parseMarkdownInline s) = true)
    (hP3 : ∀ (p : List Inline) (l : Str), pp p = true → isPlaceholderContent p = false →
      pp (p ++ Inline.hardBreak :: parseMarkdownInline (jsTrim l)) = true)
    (line : Str) {content : List Block} (hcont : blocksP pp content = true) :
    blocksP pp (continueItemContent line content) = true := by
  have hWP : blocksP pp (ensureLeadingParagraph content) = true := by
    unfold ensureLeadingParagraph
    split
    · exact hcont
    · simp only [blocksP, Bool.and_eq_true]
      exact ⟨blockP_buildParagraph hP1 _, hcont⟩
  unfold continueItemContent
  split
  · next p rest heq =>
    rw [heq] at hWP
    rw [blocksP, Bool.and_eq_true] at hWP
    obtain ⟨hp, hrest⟩ := hWP
    dsimp only
    split
    · rw [blocksP, Bool.and_eq_true]
      exact ⟨hp, hrest⟩
    · split
      · rw [blocksP, Bool.and_eq_true]
        refine ⟨?_, hrest⟩
        simp only [blockP]
        exact hP2 _
      · next hplc =>
        rw [blocksP, Bool.and_eq_true]
        refine ⟨?_, hrest⟩
        simp only [blockP]
        refine hP3 p line ?_ ?_
        · simpa [blockP] using hp
        · simp at hplc
          exact hplc
  · exact hWP

theorem stInv_contStep {pp : List Inline → Bool}
    (hP1 : ∀ s, pp (inlineOrPlaceholder s) = true)
    (hP2 : ∀ s, pp (parseMarkdownInline s) = true)
    (hP3 : ∀ (p : List Inline) (l : Str), pp p = true → isPlaceholderContent p = false →
      pp (p ++ Inline.hardBreak :: parseMarkdownInline (jsTrim l)) = true)
    (line : Str) {st : PState} (h : stInv pp st) : stInv pp (contStep line st) := by
  obtain ⟨hb, hs⟩ := h
  unfold contStep
  split
  case h_2 => exact ⟨hb, hs⟩
  case h_1 top rest heq =>
    have hall : ∀ p ∈ top :: rest, itemsP pp p.items = true := by
      rw [← heq]
      exact hs
    refine ⟨hb, ?_⟩
    intro q hq
    rcases List.mem_cons.mp hq with rfl | hq2
    · unfold appendContinuation
      dsimp only
      refine itemsP_modifyLast
        (fun it hit => blocksP_continueItemContent hP1 hP2 hP3 line hit) _ ?_
      split
      · simp [itemsP, blocksP, Bool.and_eq_true, blockP_buildParagraph hP1]
      · exact hall top (List.mem_cons_self top rest)
    · exact hall q (List.mem_cons_of_mem top hq2)

theorem blockP_buildTableNode {pp : List Inline → Bool}
    (hP1 : ∀ s, pp (inlineOrPlaceholder s) = true) (headerLine : Str)
    (bodyLines : List Str) : blockP pp (buildTableNode headerLine bodyLines) = true := by
  rw [buildTableNode]
  rw [blockP, List.all_cons, Bool.and_eq_true]
  constructor
  · rw [List.all_eq_true]
    intro cell hcell
    rw [List.mem_map] at hcell
    obtain ⟨c, hc, rfl⟩ := hcell
    exact hP1 c
  · rw [List.all_eq_true]
    intro row hrow
    rw [List.mem_map] at hrow
    obtain ⟨l, hl, rfl⟩ := hrow
    rw [List.all_eq_true]
    intro cell hcell
    rw [List.mem_map] at hcell
    obtain ⟨c, hc, rfl⟩ := hcell
    exact hP1 c

/-- The segmenter invariant: for any predicate closed under the three inline
constructions of the source, every run of the loop (with any fuel) yields
blocks satisfying the predicate everywhere. -/
theorem blocksP_goLinesF {pp : List Inline → Bool}
    (hP1 : ∀ s, pp (inlineOrPlaceholder s) = true)
    (hP2 : ∀ s, pp (parseMarkdownInline s) = true)
    (hP3 : ∀ (p : List Inline) (l : Str), pp p = true → isPlaceholderContent p = false →
      pp (p ++ Inline.hardBreak :: parseMarkdownInline (jsTrim l)) = true) :
    ∀ (fuel : Nat) (lines : List Str) (st : PState), stInv pp st →
      blocksP pp (goLinesF fuel lines st) = true := by
  intro fuel
  induction fuel with
  | zero =>
    intro lines st h
    cases lines with
    | nil => exact blocksP_finishState hP1 h
    | cons l r => exact blocksP_finishState hP1 h
  | succ f ih =>
    intro lines st h
    cases lines with
    | nil => exact blocksP_finishState hP1 h
    | cons rawLine rest =>
      rw [goLinesF]
      dsimp only
      split
      · exact ih rest _ (stInv_flushAll hP1 h)
      · split
        · exact ih _ _ (stInv_pushBlock (by simp [blockP]) (stInv_flushAll hP1 h))
        · split
          · exact ih _ _ (stInv_pushBlock (blockP_buildTableNode hP1 _ _)
              (stInv_flushAll hP1 h))
          · split
            · refine ih _ _ (stInv_pushBlock ?_ (stInv_flushAll hP1 h))
              simp only [blockP]
              split
              · simp [blocksP, Bool.and_eq_true, blockP_buildParagraph hP1]
              · exact ih _ _ ⟨by simp [blocksP, initState], by simp [initState]⟩
            · split
              · refine ih _ _ (stInv_pushBlock ?_ (stInv_flushAll hP1 h))
                simp only [blockP]
                exact hP2 _
              · split
                · refine ih _ _ (stInv_pushListItem ?_
                    (stInv_ensureListContext hP1 _ _ _ (stInv_flushParagraph hP1 h)))
                  simp [blocksP, Bool.and_eq_true, blockP_buildParagraph hP1]
                · split
                  · refine ih _ _ (stInv_pushListItem ?_
                      (stInv_ensureListContext hP1 _ _ _ (stInv_flushParagraph hP1 h)))
                    simp [blocksP, Bool.and_eq_true, blockP_buildParagraph hP1]
                  · split
                    · split
                      · exact ih _ _ (stInv_contStep hP1 hP2 hP3 _ h)
                      · exact ih _ _ (stInv_pushParaLine (stInv_flushListStack hP1 h))
                    · exact ih _ _ (stInv_pushParaLine h)

theorem stInv_initState (pp : List Inline → Bool) : stInv pp initState := by
  constructor
  · show blocksP pp [] = true
    rw [blocksP]
  · intro e he
    simp [initState] at he

/-! ### C8 — at most one mark per text node -/

/-- Paragraph content whose nodes all carry at most one mark. -/
def ppMarks (c : List Inline) : Bool := c.all marksLe1

theorem ppMarks_inline (s : Str) : ppMarks (parseMarkdownInline s) = true := by
  have h := parseMarkdownInline_nodes s
  rw [List.all_eq_true] at h
  rw [ppMarks, List.all_eq_true]
  intro n hn
  have h2 := h n hn
  rw [Bool.and_eq_true] at h2
  exact h2.2

theorem ppMarks_placeholder (s : Str) : ppMarks (inlineOrPlaceholder s) = true := by
  rw [inlineOrPlaceholder]
  split
  · decide
  · exact ppMarks_inline s

theorem ppMarks_append (p : List Inline) (l : Str) (hp : ppMarks p = true)
    (_hplc : isPlaceholderContent p = false) :
    ppMarks (p ++ Inline.hardBreak :: parseMarkdownInline (jsTrim l)) = true := by
  rw [ppMarks] at hp
  have hinl := ppMarks_inline (jsTrim l)
  rw [ppMarks] at hinl
  rw [ppMarks, List.all_append, List.all_cons]
  simp [hp, hinl, marksLe1]

/-- C8: every text node anywhere in a document produced by `createTextADF`
carries at most one mark (its marks list has length at most one); the inline
tokenizer never stacks marks, and every other construction site attaches
zero or one mark. -/
theorem text_nodes_carry_at_most_one_mark :
    ∀ text : Str, blocksP ppMarks (createTextADF text).content = true := by
  intro text
  show blocksP ppMarks (parseMarkdownBlocks text) = true
  unfold parseMarkdownBlocks
  dsimp only
  split
  · simp [blocksP, blockP_buildParagraph ppMarks_placeholder]
  · exact blocksP_goLinesF ppMarks_placeholder ppMarks_inline ppMarks_append _ _ _
      (stInv_initState _)

/-! ### C10 — no stray empty text nodes -/

theorem measureLines_cons (l : Str) (rest : List Str) :
    measureLines (l :: rest) = l.length + 1 + measureLines rest := by
  simp [measureLines]

theorem measureLines_dropWhile_le (p : Str → Bool) :
    ∀ l : List Str, measureLines (l.dropWhile p) ≤ measureLines l := by
  intro l
  induction l with
  | nil => simp [measureLines]
  | cons a r ih =>
    rw [List.dropWhile_cons]
    split
    · exact le_trans ih (by rw [measureLines_cons]; omega)
    · exact le_refl _

theorem measureLines_takeWhile_le (p : Str → Bool) :
    ∀ l : List Str, measureLines (l.takeWhile p) ≤ measureLines l := by
  intro l
  induction l with
  | nil => simp [measureLines]
  | cons a r ih =>
    rw [List.takeWhile_cons]
    split
    · rw [measureLines_cons, measureLines_cons]
      omega
    · simp [measureLines]

theorem measureLines_drop_le : ∀ (l : List Str) (n : Nat),
    measureLines (l.drop n) ≤ measureLines l := by
  intro l
  induction l with
  | nil => intro n; simp [List.drop_nil]
  | cons a r ih =>
    intro n
    cases n with
    | zero => exact le_refl _
    | succ m =>
      rw [List.drop_succ_cons]
      exact le_trans (ih m) (by rw [measureLines_cons]; omega)

theorem splitOnChar_ne_nil (d : Char) : ∀ s : Str, splitOnChar d s ≠ [] := by
  intro s
  cases s with
  | nil => simp [splitOnChar]
  | cons c t =>
    rw [splitOnChar]
    split
    · simp
    · split
      · simp
      · simp

theorem measureLines_splitOnChar (d : Char) :
    ∀ s : Str, measureLines (splitOnChar d s) = s.length + 1 := by
  intro s
  induction s with
  | nil => simp [splitOnChar, measureLines]
  | cons c t ih =>
    rw [splitOnChar]
    split
    · rw [measureLines_cons, ih]
      simp only [List.length_nil, List.length_cons]
      omega
    · split
      · next h r heq =>
        rw [heq] at ih
        rw [measureLines_cons] at ih
        rw [measureLines_cons]
        simp only [List.length_cons]
        omega
      · next heq => exact absurd heq (splitOnChar_ne_nil d t)

theorem length_joinSep_cons (d : Char) :
    ∀ (ls : List Str) (l : Str),
      (joinSep d (l :: ls)).length + 1 = measureLines (l :: ls) := by
  intro ls
  induction ls with
  | nil =>
    intro l
    simp [joinSep, measureLines]
  | cons l2 ls2 ih =>
    intro l
    have h2 := ih l2
    rw [joinSep]
    · rw [List.length_append, List.length_cons, measureLines_cons]
      omega
    · simp

theorem replaceCRLF_length_le : ∀ s : Str, (replaceCRLF s).length ≤ s.length := by
  intro s
  induction s using replaceCRLF.induct with
  | case1 => simp [replaceCRLF]
  | case2 t ih =>
    rw [replaceCRLF]
    simp only [List.length_cons]
    omega
  | case3 c t h ih =>
    rw [replaceCRLF]
    · simp only [List.length_cons]
      omega
    · exact h

theorem length_dropWhile_le (p : Char → Bool) :
    ∀ l : Str, (l.dropWhile p).length ≤ l.length := by
  intro l
  induction l with
  | nil => simp
  | cons c t ih =>
    rw [List.dropWhile_cons]
    split
    · exact le_trans ih (by simp)
    · exact le_refl _

theorem dequoteLine_length_lt {l : Str} (h : isQuoteLine l = true) :
    (dequoteLine l).length < l.length := by
  rw [isQuoteLine] at h
  rw [dequoteLine]
  split
  · next c t heq =>
    rw [heq] at h
    rw [if_pos h]
    have hlen : t.length + 1 ≤ l.length := by
      have := length_dropWhile_le isWs l
      rw [heq] at this
      simpa using this
    split
    · next w t2 =>
      split
      · simp only [List.length_cons] at hlen
        omega
      · simp only [List.length_cons] at *
        omega
    · simp only [List.length_nil]
      omega
  · next heq =>
    rw [heq] at h
    simp at h

theorem dropWhile_append_of_ne_nil (p : Char → Bool) :
    ∀ (a b : Str), a.dropWhile p ≠ [] →
      (a ++ b).dropWhile p = a.dropWhile p ++ b := by
  intro a
  induction a with
  | nil => intro b h; exact absurd rfl h
  | cons c t ih =>
    intro b h
    rw [List.cons_append]
    simp only [List.dropWhile_cons] at h ⊢
    split
    · next hp =>
      rw [if_pos hp] at h
      exact ih b h
    · next hp =>
      simp

theorem exists_trimEnd_decomposition (l : Str) :
    l = jsTrimEnd l ++ (l.reverse.takeWhile isWs).reverse := by
  rw [jsTrimEnd]
  rw [← List.reverse_append]
  rw [List.takeWhile_append_dropWhile]
  rw [List.reverse_reverse]

theorem isQuoteLine_of_trimEnd {l : Str} (h : isQuoteLine (jsTrimEnd l) = true) :
    isQuoteLine l = true := by
  have hdec := exists_trimEnd_decomposition l
  rw [isQuoteLine] at h
  rw [isQuoteLine]
  split at h
  · next c t heq =>
    have hne : (jsTrimEnd l).dropWhile isWs ≠ [] := by
      rw [heq]
      simp
    have happ : l.dropWhile isWs =
        (jsTrimEnd l).dropWhile isWs ++ (l.reverse.takeWhile isWs).reverse := by
      conv_lhs => rw [hdec]
      exact dropWhile_append_of_ne_nil isWs _ _ hne
    rw [heq] at happ
    rw [happ]
    exact h
  · simp at h

theorem measureLines_map_bound {f : Str → Str} :
    ∀ (ls : List Str), (∀ l ∈ ls, (f l).length + 1 ≤ l.length) →
      measureLines (ls.map f) ≤ (ls.map List.length).sum := by
  intro ls
  induction ls with
  | nil => intro _; simp [measureLines]
  | cons a r ih =>
    intro h
    rw [List.map_cons, measureLines_cons, List.map_cons, List.sum_cons]
    have ha := h a (List.mem_cons_self a r)
    have hr := ih (fun l hl => h l (List.mem_cons_of_mem a hl))
    omega

theorem measureLines_eq_sum_add : ∀ ls : List Str,
    measureLines ls = (ls.map List.length).sum + ls.length := by
  intro ls
  induction ls with
  | nil => simp [measureLines]
  | cons a r ih =>
    rw [measureLines_cons, List.map_cons, List.sum_cons, List.length_cons, ih]
    omega

/-- The recursive blockquote invocation runs on strictly less text: the line
measure of the dequoted, re-joined, re-split sub-input is strictly below the
measure of the lines from the quote line on. -/
theorem quote_inner_measure_lt {rawLine : Str} (rest : List Str)
    (hq : isQuoteLine (jsTrimEnd rawLine) = true) :
    measureLines (splitOnChar '\n' (replaceCRLF (joinSep '\n'
      ((rawLine :: rest.takeWhile isQuoteLine).map dequoteLine)))) + 1 ≤
      measureLines (rawLine :: rest) := by
  have hql : ∀ l ∈ rawLine :: rest.takeWhile isQuoteLine, isQuoteLine l = true := by
    intro l hl
    rcases List.mem_cons.mp hl with rfl | hl2
    · exact isQuoteLine_of_trimEnd hq
    · exact List.mem_takeWhile_imp hl2
  have hlen : ∀ l ∈ rawLine :: rest.takeWhile isQuoteLine,
      (dequoteLine l).length + 1 ≤ l.length := by
    intro l hl
    have := dequoteLine_length_lt (hql l hl)
    omega
  have h1 : measureLines ((rawLine :: rest.takeWhile isQuoteLine).map dequoteLine) ≤
      ((rawLine :: rest.takeWhile isQuoteLine).map List.length).sum :=
    measureLines_map_bound _ hlen
  have h2 : (joinSep '\n' ((rawLine :: rest.takeWhile isQuoteLine).map dequoteLine)).length
      + 1 = measureLines ((rawLine :: rest.takeWhile isQuoteLine).map dequoteLine) := by
    rw [List.map_cons]
    exact length_joinSep_cons '\n' _ _
  have h3 := measureLines_splitOnChar '\n' (replaceCRLF (joinSep '\n'
    ((rawLine :: rest.takeWhile isQuoteLine).map dequoteLine)))
  have h4 := replaceCRLF_length_le (joinSep '\n'
    ((rawLine :: rest.takeWhile isQuoteLine).map dequoteLine))
  have h5 := measureLines_eq_sum_add (rawLine :: rest.takeWhile isQuoteLine)
  have h6 : measureLines (rawLine :: rest.takeWhile isQuoteLine) ≤
      measureLines (rawLine :: rest) := by
    rw [measureLines_cons, measureLines_cons]
    have := measureLines_takeWhile_le isQuoteLine rest
    omega
  have h7 : 1 ≤ (rawLine :: rest.takeWhile isQuoteLine).length := by simp
  omega

theorem dropWhile_append_all (p : Char → Bool) :
    ∀ (a b : Str), (∀ c ∈ a, p c = true) → (a ++ b).dropWhile p = b.dropWhile p := by
  intro a
  induction a with
  | nil => intro b _; rfl
  | cons c t ih =>
    intro b h
    rw [List.cons_append, List.dropWhile_cons, if_pos (h c (List.mem_cons_self c t))]
    exact ih b (fun x hx => h x (List.mem_cons_of_mem c hx))

theorem jsTrimEnd_cons_of_not_ws {c : Char} (hc : isWs c = false) (u : Str) :
    jsTrimEnd (c :: u) = c :: jsTrimEnd u := by
  rw [jsTrimEnd, jsTrimEnd, List.reverse_cons]
  by_cases hu : u.reverse.dropWhile isWs = []
  · rw [dropWhile_append_all isWs _ _ (List.dropWhile_eq_nil_iff.mp hu)]
    rw [hu]
    simp [List.dropWhile_cons, hc]
  · rw [dropWhile_append_of_ne_nil isWs _ _ hu]
    rw [List.reverse_append]
    simp

theorem isQuoteLine_shape {l : Str} (h : isQuoteLine l = true) :
    ∃ t, l.dropWhile isWs = '>' :: t := by
  rw [isQuoteLine] at h
  split at h
  · next c t heq =>
    have hc : c = '>' := by simpa using h
    subst hc
    exact ⟨t, heq⟩
  · exact absurd h (by simp)

theorem jsTrim_of_quote {l : Str} (h : isQuoteLine l = true) :
    ∃ t, jsTrim l = '>' :: t := by
  obtain ⟨t, heq⟩ := isQuoteLine_shape h
  rw [jsTrim, heq, jsTrimEnd_cons_of_not_ws (by decide) t]
  exact ⟨jsTrimEnd t, rfl⟩

theorem fenceLang_ne_head {c : Char} (t : Str) (h : (c == btChar) = false) :
    fenceLang (c :: t) = none := by
  rcases t with _ | ⟨b, _ | ⟨d, r⟩⟩ <;> simp [fenceLang, h]

theorem goLinesF_nil (f : Nat) (st : PState) : goLinesF f [] st = finishState st := by
  cases f <;> rfl

/-- Fuel independence of the line loop: any two fuel budgets at least the
line measure produce the same output — the loop and its recursive blockquote
sub-invocations terminate within the measure. -/
theorem goLinesF_mono :
    ∀ (f1 f2 : Nat) (lines : List Str) (st : PState),
      measureLines lines ≤ f1 → measureLines lines ≤ f2 →
      goLinesF f1 lines st = goLinesF f2 lines st := by
  intro f1
  induction f1 with
  | zero =>
    intro f2 lines st h1 h2
    cases lines with
    | nil => rw [goLinesF_nil, goLinesF_nil]
    | cons l r =>
      rw [measureLines_cons] at h1
      omega
  | succ f ih =>
    intro f2 lines st h1 h2
    cases lines with
    | nil => rw [goLinesF_nil, goLinesF_nil]
    | cons rawLine rest =>
      cases f2 with
      | zero =>
        rw [measureLines_cons] at h2
        omega
      | succ g =>
        have hc := measureLines_cons rawLine rest
        have hrf : measureLines rest ≤ f := by omega
        have hrg : measureLines rest ≤ g := by omega
        rw [goLinesF, goLinesF]
        dsimp only
        split
        · exact ih g rest _ hrf hrg
        · split
          · have hb : measureLines ((rest.dropWhile (fun l => !isCloseFence l)).drop 1) ≤
                measureLines rest :=
              le_trans (measureLines_drop_le _ 1) (measureLines_dropWhile_le _ rest)
            exact ih g _ _ (le_trans hb hrf) (le_trans hb hrg)
          · split
            · have hb : measureLines ((rest.drop 1).dropWhile isBodyRow) ≤
                  measureLines rest :=
                le_trans (measureLines_dropWhile_le _ _) (measureLines_drop_le _ 1)
              exact ih g _ _ (le_trans hb hrf) (le_trans hb hrg)
            · split
              · next hq =>
                have hin := quote_inner_measure_lt rest hq
                have hif : measureLines (splitOnChar '\n' (replaceCRLF (joinSep '\n'
                    ((rawLine :: rest.takeWhile isQuoteLine).map dequoteLine)))) ≤ f := by
                  omega
                have hig : measureLines (splitOnChar '\n' (replaceCRLF (joinSep '\n'
                    ((rawLine :: rest.takeWhile isQuoteLine).map dequoteLine)))) ≤ g := by
                  omega
                rw [ih g _ initState hif hig]
                have hb : measureLines (rest.dropWhile isQuoteLine) ≤ measureLines rest :=
                  measureLines_dropWhile_le _ rest
                exact ih g _ _ (le_trans hb hrf) (le_trans hb hrg)
              · split
                · exact ih g rest _ hrf hrg
                · split
                  · exact ih g rest _ hrf hrg
                  · split
                    · exact ih g rest _ hrf hrg
                    · split
                      · split
                        · exact ih g rest _ hrf hrg
                        · exact ih g rest _ hrf hrg
                      · exact ih g rest _ hrf hrg

/-! ### C1 — totality and termination of the converter -/

/-- C1: for every input string the converter returns a version-1 document
with non-empty content and no error outcome, and running the segmenter loop
with any fuel budget at least the input's line measure yields that same
content — the loop, its recursive blockquote sub-invocations, the capture
loops and the inline tokenizer all make strict progress and complete within
the measure. -/
theorem converter_total_and_fuel_independent :
    ∀ (text : Str) (fuel : Nat),
      measureLines (splitOnChar '\n' (replaceCRLF text)) ≤ fuel →
      (createTextADF text).version = 1 ∧
        (createTextADF text).content ≠ [] ∧
        (createTextADF text).content =
          (if (goLinesF fuel (splitOnChar '\n' (replaceCRLF text)) initState).isEmpty
            then [buildParagraph []]
            else goLinesF fuel (splitOnChar '\n' (replaceCRLF text)) initState) := by
  intro text fuel h
  refine ⟨rfl, parseMarkdownBlocks_ne_nil text, ?_⟩
  show parseMarkdownBlocks text = _
  unfold parseMarkdownBlocks
  dsimp only
  rw [goLinesF_mono (measureLines (splitOnChar '\n' (replaceCRLF text))) fuel
    (splitOnChar '\n' (replaceCRLF text)) initState (le_refl _) h]

/-- C1 witness: the empty input converted within fuel budget 1. -/
theorem converter_total_and_fuel_independent_witness :
    measureLines (splitOnChar '\n' (replaceCRLF [])) ≤ 1 ∧
      ((createTextADF []).version = 1 ∧
        (createTextADF []).content ≠ [] ∧
        (createTextADF []).content =
          (if (goLinesF 1 (splitOnChar '\n' (replaceCRLF [])) initState).isEmpty
            then [buildParagraph []]
            else goLinesF 1 (splitOnChar '\n' (replaceCRLF [])) initState)) :=
  ⟨by decide, converter_total_and_fuel_independent [] 1 (by decide)⟩

/-! ### C7 — blockquotes segment their dequoted text recursively -/

/-- C7: a maximal run of quote lines produces exactly one blockquote whose
content is the recursive segmentation (`parseMarkdownBlocks`) of the
dequoted lines joined by newlines; in particular `"> line1\n> line2"`
yields one blockquote holding one paragraph `"line1 line2"`. -/
theorem blockquote_recursive_segmentation :
    parseMarkdownBlocks ("> line1\n> line2").data =
      [Block.blockquote [Block.paragraph [Inline.text ("line1 line2").data []]]] ∧
      (∀ (fuel : Nat) (rawLine : Str) (rest : List Str) (st : PState),
        measureLines (rawLine :: rest) ≤ fuel + 1 →
        isQuoteLine (jsTrimEnd rawLine) = true →
        tableCond (jsTrim (jsTrimEnd rawLine)) rest = false →
        goLinesF (fuel + 1) (rawLine :: rest) st =
          goLinesF fuel (rest.dropWhile isQuoteLine)
            (pushBlock (Block.blockquote (parseMarkdownBlocks (joinSep '\n'
              ((rawLine :: rest.takeWhile isQuoteLine).map dequoteLine))))
              (flushAll st))) := by
  constructor
  · rfl
  · intro fuel rawLine rest st hm hq htc
    obtain ⟨t0, htr⟩ := jsTrim_of_quote hq
    have h0 : (jsTrim (jsTrimEnd rawLine)).isEmpty = false := by
      rw [htr]
      rfl
    have hfence : fenceLang (jsTrim (jsTrimEnd rawLine)) = none := by
      rw [htr]
      exact fenceLang_ne_head t0 (by decide)
    have hin := quote_inner_measure_lt rest hq
    have hif : measureLines (splitOnChar '\n' (replaceCRLF (joinSep '\n'
        ((rawLine :: rest.takeWhile isQuoteLine).map dequoteLine)))) ≤ fuel := by
      omega
    rw [goLinesF]
    dsimp only
    rw [h0, if_neg (by simp : ¬(false = true))]
    rw [hfence]
    dsimp only
    rw [htc, if_neg (by simp : ¬(false = true))]
    rw [hq, if_pos rfl]
    rw [goLinesF_mono fuel (measureLines (splitOnChar '\n' (replaceCRLF (joinSep '\n'
      ((rawLine :: rest.takeWhile isQuoteLine).map dequoteLine)))))
      (splitOnChar '\n' (replaceCRLF (joinSep '\n'
        ((rawLine :: rest.takeWhile isQuoteLine).map dequoteLine)))) initState
      hif (le_refl _)]
    rw [parseMarkdownBlocks]

/-- C7 witness: the general blockquote step at the concrete line `"> a"`
with no following lines and fuel 10. -/
theorem blockquote_recursive_segmentation_witness :
    goLinesF 11 (("> a").data :: []) initState =
      goLinesF 10 (([] : List Str).dropWhile isQuoteLine)
        (pushBlock (Block.blockquote (parseMarkdownBlocks (joinSep '\n'
          ((("> a").data :: ([] : List Str).takeWhile isQuoteLine).map dequoteLine))))
          (flushAll initState)) :=
  blockquote_recursive_segmentation.2 10 ("> a").data [] initState
    (by decide) (by decide) (by decide)

end JiraMd
